import Mathlib

/-!
Verification of the allocation and name-resolution engine of the
moodle-submission-splitter repository (`splitting/util.py`, `splitting/split.py`).

Conventions of the shallow embedding:
* a pandas `DataFrame` of submissions is modelled as a `List α` of records in order;
* Python floats are modelled as exact rationals `ℚ` (all numeric examples in the
  spec are exactly representable, and the algorithm uses only `+ * / floor`);
* Python exceptions (`IndexError`, `ValueError`, `AssertionError`) are modelled by
  `Except` with dedicated error values;
* Python strings are Lean `String`s (or `List Char` inside the regex matcher).
-/

set_option maxRecDepth 20000

namespace MoodleSplit

/-! Source function `util.weighted_chunks`

Source (`splitting/util.py`, lines 102-122):
```
weights = np.array(weights, dtype=float) / sum(weights)
chunk_sizes = [math.floor(len(df) * w) for w in weights]
remainder_size = len(df) - sum(chunk_sizes)
idx = 0
while remainder_size > 0:
    chunk_sizes[idx] += 1
    idx = (idx + 1) % len(chunk_sizes)
    remainder_size -= 1
...
chunks = []
idx = 0
for chunk_size in chunk_sizes:
    chunks.append(df.iloc[idx:idx + chunk_size].copy())
    idx += chunk_size
```
Note: for an empty weight list Python would raise `IndexError` inside the loop and
for `sum(weights) = 0` NumPy produces NaN/inf; every claim below assumes a
non-empty weight list with positive sum, where the `ℚ` model (`q / 0 = 0` never
reached) agrees with the float code on the spec's exactly-representable examples.
-/

/-- One Python statement `chunk_sizes[idx] += 1` (out-of-range index leaves the
list unchanged; in the claims' scope the index is always in range). -/
def incAt : List ℤ → ℕ → List ℤ
  | [], _ => []
  | x :: xs, 0 => (x + 1) :: xs
  | x :: xs, i + 1 => x :: incAt xs i

/-- The `while remainder_size > 0` loop: starting at `idx`, add one unit to
successive positions round-robin (`idx = (idx + 1) % len(chunk_sizes)`) until the
remaining count is exhausted. -/
def distributeRemainder : List ℤ → ℕ → ℕ → List ℤ
  | sizes, _, 0 => sizes
  | sizes, idx, r + 1 => distributeRemainder (incAt sizes idx) ((idx + 1) % sizes.length) r

/-- The comprehension `chunk_sizes = [math.floor(len(df) * w) for w in weights]` after the weights
were scaled by `sum(weights)`. -/
def floorSizes (n : ℕ) (weights : List ℚ) : List ℤ :=
  weights.map fun w => ⌊(n : ℚ) * (w / weights.sum)⌋

/-- The final chunk sizes: floors plus the round-robin-distributed remainder
`len(df) - sum(chunk_sizes)` (the loop runs only while the remainder is
positive, hence `Int.toNat`). -/
def chunkSizes (n : ℕ) (weights : List ℚ) : List ℤ :=
  distributeRemainder (floorSizes n weights) 0 ((n : ℤ) - (floorSizes n weights).sum).toNat

/-- The collection loop: `df.iloc[idx:idx + chunk_size]` is the slice of length
`chunk_size` starting at the running offset `idx` (Python slicing clamps, and a
negative length yields an empty slice, matching `Int.toNat`). -/
def collectChunks (df : List α) : List ℤ → ℕ → List (List α)
  | [], _ => []
  | s :: rest, idx => (df.drop idx).take s.toNat :: collectChunks df rest (idx + s.toNat)

/-- Function `util.weighted_chunks`: split `df` into contiguous chunks whose sizes are the
weight-proportional floors plus round-robin remainder. -/
def weighted_chunks (df : List α) (weights : List ℚ) : List (List α) :=
  collectChunks df (chunkSizes df.length weights) 0

/-! Roster rotation (`split.py`, lines 132-133)

```
tutors_df["name"] = np.roll(tutors_df["name"], exercise_num)
tutors_df["weight"] = np.roll(tutors_df["weight"], exercise_num)
```
Both the name column and the weight column are rotated by the same `np.roll`
call, so the rotation is modelled once, generically in the element type.
-/

/-- NumPy `np.roll` on a 1-D sequence of length `K`: the element at input index `i`
appears at output index `(i + s) mod K`; implemented as NumPy does by splitting
the list at offset `K - (s mod K)` and swapping the two parts (`s` may be any
integer; an empty sequence is returned unchanged). -/
def np_roll {α : Type} (l : List α) (s : ℤ) : List α :=
  if l.length = 0 then l
  else
    l.drop (l.length - (s % (l.length : ℤ)).toNat) ++
      l.take (l.length - (s % (l.length : ℤ)).toNat)

/-! Source function `util.extract_weighted_tutors` (lines 22-35)

```
if "," in tutors_list[0]:
    rows = []
    for t in tutors_list:
        if "," not in t:
            raise ValueError(f"expected ',' in tutor entry '{t}'")
        name, weight = t.split(",", maxsplit=1)
        rows.append([name, float(weight)])
    return pd.DataFrame(rows)
for t in tutors_list:
    if "," in t:
        raise ValueError(f"unexpected ',' in tutor entry '{t}'")
return pd.DataFrame(tutors_list)
```
The weight is kept as its raw string here; the `float(weight)` conversion does
not influence which branch is taken or which separator error is raised, which is
all claim C10 is about. -/

/-- Result of tutor-list parsing: two-column `name, weight` rows or a plain
name list. -/
inductive TutorsResult
  | weighted (rows : List (String × String))
  | unweighted (names : List String)
deriving DecidableEq

/-- Errors of `extract_weighted_tutors`: Python's `IndexError` from
`tutors_list[0]` on an empty list, and the two `ValueError` messages for
inconsistent separator usage. -/
inductive TutorsErr
  | indexError
  | expectedComma (t : String)
  | unexpectedComma (t : String)
deriving DecidableEq

/-- Python `t.split(",", maxsplit=1)`: the part before the first comma, and the
rest joined back together. -/
def splitOnceComma (t : String) : String × String :=
  ((t.splitOn ",").headD "", String.intercalate "," (t.splitOn ",").tail)

/-- The weighted-branch loop: every entry must contain a comma and is split
into a `(name, weight)` row; the first entry without a comma raises. -/
def parseWeightedRows : List String → Except TutorsErr (List (String × String))
  | [] => .ok []
  | t :: ts =>
    if t.contains ',' then
      (parseWeightedRows ts).map fun rows => splitOnceComma t :: rows
    else .error (.expectedComma t)

/-- The unweighted-branch loop: no entry may contain a comma. -/
def checkUnweighted : List String → Except TutorsErr (List String)
  | [] => .ok []
  | t :: ts =>
    if t.contains ',' then .error (.unexpectedComma t)
    else (checkUnweighted ts).map fun ns => t :: ns

/-- Function `util.extract_weighted_tutors`: the branch is chosen solely by
`"," in tutors_list[0]`, which on an empty list raises `IndexError` first. -/
def extract_weighted_tutors (ts : List String) : Except TutorsErr TutorsResult :=
  match ts with
  | [] => .error .indexError
  | t0 :: rest =>
    if t0.contains ',' then
      (parseWeightedRows (t0 :: rest)).map .weighted
    else
      (checkUnweighted (t0 :: rest)).map .unweighted

/-- Observable branch of a parsing outcome: `true` for the weighted-format
branch (weighted rows, or the missing-comma error), `false` for the unweighted
branch (name list, or the unexpected-comma error). -/
def tookWeightedBranch : Except TutorsErr TutorsResult → Bool
  | .ok (.weighted _) => true
  | .error (.expectedComma _) => true
  | .ok (.unweighted _) => false
  | .error (.unexpectedComma _) => false
  | .error .indexError => false

/-! Source function `util.handle_duplicate_names` (lines 38-51)

```
dup = tutors_df["name"].duplicated(keep=False)
dup_names = tutors_df["name"][dup]
counts = dict()
def update_and_get_count(name):
    count = counts.get(name, 0)
    count += 1
    counts[name] = count
    return count
tutors_df.loc[dup, "name"] = [f"{dn} ({update_and_get_count(dn)})" for dn in dup_names]
```
`duplicated(keep=False)` marks a position iff its name occurs at least twice in
the whole column; the marked positions, in order, get the suffixed values; the
counter dictionary is threaded through the comprehension. -/

/-- The renaming pass: walk the names; a name occurring at least twice in the
whole roster is replaced by `f"{name} ({count})"` with its running counter
(counters of non-duplicated names are never touched). -/
def renameStep (total : List String) : List String → (String → ℕ) → List String
  | [], _ => []
  | n :: rest, counts =>
    if 2 ≤ total.count n then
      (n ++ " (" ++ toString (counts n + 1) ++ ")") ::
        renameStep total rest fun m => if m = n then counts n + 1 else counts m
    else
      n :: renameStep total rest counts

/-- Function `util.handle_duplicate_names` on the name column (the in-place DataFrame
mutation expressed as a function from the old to the new column). -/
def handle_duplicate_names (names : List String) : List String :=
  renameStep names names fun _ => 0

/-- Modelled from the spec's words, for comparison with the code: each
occurrence of a duplicated name is suffixed with a 1-based occurrence counter,
the counter being the number of occurrences of that name in the already
processed part `pre` of the roster plus one. -/
def specRename (total : List String) : List String → List String → List String
  | _, [] => []
  | pre, n :: rest =>
    (if 2 ≤ total.count n then n ++ " (" ++ toString (pre.count n + 1) ++ ")" else n) ::
      specRename total (pre ++ [n]) rest

/-! Lossless-join check (`split.py`, lines 160-162)

```
merged_df = pd.merge(submissions_df, info_df, on=FULL_NAME_COL, how="inner")
assert len(submissions_df) == len(merged_df)
```
An inner merge produces one row per (submission row, matching auxiliary row)
pair, in left order; only the full-name key columns matter here. -/

/-- The inner merge on the full-name key: one output pair per submission and
matching auxiliary row. -/
def innerMergeKeys (subs info : List String) : List (String × String) :=
  subs.flatMap fun s => (info.filter fun t => t == s).map fun t => (s, t)

/-- The sanity check `assert len(submissions_df) == len(merged_df)`:
`true` means the assert passes. -/
def joinCheckPasses (subs info : List String) : Bool :=
  (innerMergeKeys subs info).length == subs.length

/-! Source function `util.match_full_names` (lines 65-99)

```
first_name_counts = defaultdict(int)
last_name_counts = defaultdict(int)
for full_name in full_names:
    for col in info_df.columns:
        for elem in info_df[col]:
            if full_name.startswith(elem):
                first_name_counts[col] += 1
            else:
                name_parts = full_name.split(" ")
                assert len(name_parts) >= 2
                for name_part in name_parts[1:]:
                    if elem.startswith(name_part):
                        last_name_counts[col] += 1
first_name_col = max(first_name_counts.items(), key=lambda kv: kv[1])[0]
last_name_col = max(last_name_counts.items(), key=lambda kv: kv[1])[0]
assert first_name_col != last_name_col
return first_name_col, last_name_col
```
Full names and cell values are `List Char` (Python `str.startswith` and
`str.split(" ")` are modelled character-wise below); column labels are
`String`. The count dictionaries are insertion-ordered association lists,
matching Python dict iteration order as seen by `max`. -/

/-- Python `s.startswith(p)` character-wise. -/
def charsStartsWith : List Char → List Char → Bool
  | _, [] => true
  | [], _ :: _ => false
  | c :: s, p :: ps => if c = p then charsStartsWith s ps else false

/-- Python `s.split(sep)` for a one-character separator: split at every
occurrence, keeping empty parts. -/
def splitOnChar (sep : Char) : List Char → List (List Char)
  | [] => [[]]
  | c :: rest =>
    let r := splitOnChar sep rest
    if c = sep then [] :: r
    else (c :: r.headD []) :: r.tail

instance {ε α : Type} [DecidableEq ε] [DecidableEq α] : DecidableEq (Except ε α) := fun x y =>
  match x, y with
  | .ok a, .ok b =>
    if h : a = b then .isTrue (h ▸ rfl) else .isFalse fun hc => h (Except.ok.inj hc)
  | .ok _, .error _ => .isFalse fun hc => Except.noConfusion hc
  | .error _, .ok _ => .isFalse fun hc => Except.noConfusion hc
  | .error e, .error e2 =>
    if h : e = e2 then .isTrue (h ▸ rfl) else .isFalse fun hc => h (Except.error.inj hc)

/-- Errors of `match_full_names`: the `assert len(name_parts) >= 2` failure,
the final `assert first_name_col != last_name_col` failure, and Python's
`ValueError` from `max()` over an empty count dictionary. -/
inductive MatchErr
  | assertSplit (fullName : List Char)
  | assertSameCol (c : String)
  | emptyMax
deriving DecidableEq

/-- Python `defaultdict(int)` increment: bump the entry of `k`, appending it with
count 1 on first use (Python dicts preserve insertion order). -/
def bump : List (String × ℕ) → String → List (String × ℕ)
  | [], k => [(k, 1)]
  | (k2, v) :: rest, k =>
    if k2 = k then (k2, v + 1) :: rest else (k2, v) :: bump rest k

/-- The innermost loop body for one full name against one cell value of column
`col`: a prefix hit bumps the first-name count of `col`; otherwise the full
name is split on spaces (asserting at least two parts) and every part after
the first that the cell value starts with bumps the last-name count. -/
def nameStep (fullName : List Char) (col : String) (elem : List Char)
    (acc : List (String × ℕ) × List (String × ℕ)) :
    Except MatchErr (List (String × ℕ) × List (String × ℕ)) :=
  if charsStartsWith fullName elem then .ok (bump acc.1 col, acc.2)
  else if 2 ≤ (splitOnChar ' ' fullName).length then
    .ok (acc.1, (splitOnChar ' ' fullName).tail.foldl
      (fun lc part => if charsStartsWith elem part then bump lc col else lc) acc.2)
  else .error (.assertSplit fullName)

/-- Loop `for elem in info_df[col]`. -/
def colStep (fullName : List Char) (col : String) :
    List (List Char) → List (String × ℕ) × List (String × ℕ) →
      Except MatchErr (List (String × ℕ) × List (String × ℕ))
  | [], acc => .ok acc
  | e :: es, acc =>
    match nameStep fullName col e acc with
    | .ok acc2 => colStep fullName col es acc2
    | .error err => .error err

/-- Loop `for col in info_df.columns`. -/
def colsLoop (fullName : List Char) :
    List (String × List (List Char)) → List (String × ℕ) × List (String × ℕ) →
      Except MatchErr (List (String × ℕ) × List (String × ℕ))
  | [], acc => .ok acc
  | (col, elems) :: cols, acc =>
    match colStep fullName col elems acc with
    | .ok acc2 => colsLoop fullName cols acc2
    | .error err => .error err

/-- Loop `for full_name in full_names`: accumulate both count dictionaries. -/
def accumCounts :
    List (List Char) → List (String × List (List Char)) →
      List (String × ℕ) × List (String × ℕ) →
      Except MatchErr (List (String × ℕ) × List (String × ℕ))
  | [], _, acc => .ok acc
  | fn :: fns, info, acc =>
    match colsLoop fn info acc with
    | .ok acc2 => accumCounts fns info acc2
    | .error err => .error err

/-- Python `max(d.items(), key=lambda kv: kv[1])`: the first entry in
iteration order attaining the maximal count; `none` for the empty dictionary
(where Python raises `ValueError`). -/
def pymax : List (String × ℕ) → Option (String × ℕ)
  | [] => none
  | kv :: rest =>
    match pymax rest with
    | none => some kv
    | some best => if best.2 > kv.2 then some best else some kv

/-- The final stage of `match_full_names`: take both `max` winners and assert
they differ. -/
def finalStage (fc lc : List (String × ℕ)) : Except MatchErr (String × String) :=
  match pymax fc, pymax lc with
  | some fkv, some lkv =>
    if fkv.1 = lkv.1 then .error (.assertSameCol fkv.1) else .ok (fkv.1, lkv.1)
  | _, _ => .error .emptyMax

/-- Function `util.match_full_names`. -/
def match_full_names (fullNames : List (List Char))
    (info : List (String × List (List Char))) : Except MatchErr (String × String) :=
  match accumCounts fullNames info ([], []) with
  | .error err => .error err
  | .ok (fc, lc) => finalStage fc lc

/-- Column `k` attains the maximal count in the association list `l`. -/
def isMaxOf (k : String) (l : List (String × ℕ)) : Prop :=
  ∃ v, (k, v) ∈ l ∧ ∀ x ∈ l, x.2 ≤ v

/-! Source function `util.get_submissions_df` (lines 54-62) and `re.search`

```
data = defaultdict(list)
for s in submissions:
    for name, regex in regex_cols.items():
        match = re.search(regex, s)
        if match is None:
            raise ValueError(f"submission '{s}' does not contain regex pattern "
                             f"'{regex}' for column '{name}'")
        data[name].append(match.group())
return pd.DataFrame(data)
```
`re.search` is modelled by a small backtracking matcher covering exactly the
regex features the caller uses (`split.py` lines 149-153): `.`, `\d`, literal
characters, concatenation, greedy `+`, bounded repetition `{n}` (expanded into
a concatenation) and lookahead `(?=...)`. The search scans start positions
left to right and returns the leftmost, then greedy-first match — the string
`match.group()` returns. (`.` is modelled as any character and `\d` as an
ASCII digit; the inputs in scope contain no newlines and no non-ASCII digits,
where Python agrees.) The column-major `defaultdict(list)` of the source holds
the same data as the per-identifier records built here, and the error carries
the offending identifier and column name exactly as the `ValueError` text
does. -/

/-- Regex abstract syntax: `eps` matches the empty string, `dot` is `.`,
`digit` is `\d`, `lit c` a literal character, `seq` concatenation, `plus`
greedy `+`, `look` lookahead `(?=...)`. -/
inductive Regex
  | eps
  | dot
  | digit
  | lit (c : Char)
  | seq (a b : Regex)
  | plus (a : Regex)
  | look (a : Regex)
deriving DecidableEq

/-- Bounded repetition `a{n}` expanded into a concatenation. -/
def repN (a : Regex) : ℕ → Regex
  | 0 => .eps
  | n + 1 => .seq a (repN a n)

/-- Structural size of a pattern, used to provision matching fuel. -/
def rsize : Regex → ℕ
  | .eps => 1
  | .dot => 1
  | .digit => 1
  | .lit _ => 1
  | .seq a b => rsize a + rsize b + 1
  | .plus a => rsize a + 1
  | .look a => rsize a + 1

/-- Backtracking matcher: `rmatchF fuel r s` lists the suffixes of `s` that
remain after a match of `r` at the start of `s`, in Python backtracking
preference order (greedy `+` lists longer matches first); the head, when the
list is non-empty, is the remainder of the match Python commits to. The fuel
is structural bookkeeping only; `rmatch` below supplies enough of it that the
out-of-fuel arm is never reached on the inputs in scope. -/
def rmatchF : ℕ → Regex → List Char → List (List Char)
  | 0, _, _ => []
  | _ + 1, .eps, s => [s]
  | _ + 1, .dot, [] => []
  | _ + 1, .dot, _ :: s => [s]
  | _ + 1, .digit, [] => []
  | _ + 1, .digit, c :: s => if c.isDigit then [s] else []
  | _ + 1, .lit _, [] => []
  | _ + 1, .lit c, d :: s => if d = c then [s] else []
  | fuel + 1, .seq a b, s => (rmatchF fuel a s).flatMap (rmatchF fuel b)
  | fuel + 1, .plus a, s =>
    (rmatchF fuel a s).flatMap fun t =>
      if t.length < s.length then rmatchF fuel (.plus a) t ++ [t] else [t]
  | fuel + 1, .look a, s => if (rmatchF fuel a s).isEmpty then [] else [s]

/-- Matching with ample fuel. -/
def rmatch (r : Regex) (s : List Char) : List (List Char) :=
  rmatchF ((rsize r + 1) * (s.length + 2)) r s

/-- A match of `r` anchored at the start of `s`: the consumed prefix of the
preferred (first-listed) match. -/
def trymatch (r : Regex) (s : List Char) : Option (List Char) :=
  match rmatch r s with
  | [] => none
  | rem :: _ => some (s.take (s.length - rem.length))

/-- Python `re.search(r, s).group()`: try successive start positions left to
right and return the first match found. -/
def rsearch (r : Regex) : List Char → Option (List Char)
  | [] => trymatch r []
  | c :: rest =>
    match trymatch r (c :: rest) with
    | some m => some m
    | none => rsearch r rest

/-- One record: for each `(column, regex)` in order, the first match of the
pattern within the identifier; a failing column raises, naming the identifier
and the column. -/
def extractRow (s : List Char) :
    List (String × Regex) → Except (List Char × String) (List (List Char))
  | [] => .ok []
  | (name, r) :: cols =>
    match rsearch r s with
    | none => .error (s, name)
    | some m =>
      match extractRow s cols with
      | .ok vals => .ok (m :: vals)
      | .error e => .error e

/-- Function `util.get_submissions_df`: one record per identifier, all-or-nothing. -/
def get_submissions_df :
    List (List Char) → List (String × Regex) →
      Except (List Char × String) (List (List (List Char)))
  | [], _ => .ok []
  | s :: ss, cols =>
    match extractRow s cols with
    | .error e => .error e
    | .ok row =>
      match get_submissions_df ss cols with
      | .ok rows => .ok (row :: rows)
      | .error e => .error e

/-- The full-name pattern of `split.py` line 150: `.+(?=_\d{7})`. -/
def fullNamePat : Regex := .seq (.plus .dot) (.look (.seq (.lit '_') (repN .digit 7)))

/-- The Moodle-id pattern of `split.py` line 151: `\d{7}`. -/
def moodleIdPat : Regex := repN .digit 7

theorem incAt_length (l : List ℤ) (i : ℕ) : (incAt l i).length = l.length := by
  induction l generalizing i with
  | nil => rfl
  | cons x xs ih =>
    cases i with
    | zero => rfl
    | succ j => simp [incAt, ih]

theorem incAt_sum (l : List ℤ) (i : ℕ) (h : i < l.length) :
    (incAt l i).sum = l.sum + 1 := by
  induction l generalizing i with
  | nil => simp at h
  | cons x xs ih =>
    cases i with
    | zero => simp [incAt, List.sum_cons]; ring
    | succ j =>
      have hj : j < xs.length := by simpa using h
      simp only [incAt, List.sum_cons, ih j hj]
      ring

theorem incAt_nonneg (l : List ℤ) (i : ℕ) (h : ∀ x ∈ l, 0 ≤ x) :
    ∀ x ∈ incAt l i, 0 ≤ x := by
  induction l generalizing i with
  | nil => intro x hx; simp [incAt] at hx
  | cons a xs ih =>
    cases i with
    | zero =>
      intro x hx
      simp only [incAt, List.mem_cons] at hx
      rcases hx with rfl | hx
      · have := h a (by simp)
        omega
      · exact h x (by simp [hx])
    | succ j =>
      intro x hx
      simp only [incAt, List.mem_cons] at hx
      rcases hx with rfl | hx
      · exact h x (by simp)
      · exact ih j (fun y hy => h y (by simp [hy])) x hx

theorem distributeRemainder_length (r : ℕ) :
    ∀ (l : List ℤ) (idx : ℕ), (distributeRemainder l idx r).length = l.length := by
  induction r with
  | zero => intro l idx; rfl
  | succ r ih => intro l idx; rw [distributeRemainder, ih, incAt_length]

theorem distributeRemainder_sum (r : ℕ) :
    ∀ (l : List ℤ) (idx : ℕ), idx < l.length →
      (distributeRemainder l idx r).sum = l.sum + r := by
  induction r with
  | zero => intro l idx _; simp [distributeRemainder]
  | succ r ih =>
    intro l idx h
    have hlen : 0 < l.length := Nat.lt_of_le_of_lt (Nat.zero_le idx) h
    have hnext : (idx + 1) % l.length < (incAt l idx).length := by
      rw [incAt_length]
      exact Nat.mod_lt _ hlen
    rw [distributeRemainder, ih _ _ hnext, incAt_sum l idx h]
    push_cast
    ring

theorem distributeRemainder_nonneg (r : ℕ) :
    ∀ (l : List ℤ) (idx : ℕ), (∀ x ∈ l, 0 ≤ x) →
      ∀ x ∈ distributeRemainder l idx r, 0 ≤ x := by
  induction r with
  | zero => intro l idx h; exact h
  | succ r ih => intro l idx h; exact ih _ _ (incAt_nonneg l idx h)

theorem floorSizes_length (n : ℕ) (w : List ℚ) : (floorSizes n w).length = w.length := by
  simp [floorSizes]

theorem floorSizes_nonneg (n : ℕ) (w : List ℚ) (hw : ∀ x ∈ w, 0 ≤ x) (hs : 0 ≤ w.sum) :
    ∀ s ∈ floorSizes n w, 0 ≤ s := by
  intro s hmem
  simp only [floorSizes, List.mem_map] at hmem
  obtain ⟨x, hx, rfl⟩ := hmem
  exact Int.floor_nonneg.2 (mul_nonneg (by positivity) (div_nonneg (hw x hx) hs))

theorem sum_floor_map_le (f : ℚ → ℚ) (l : List ℚ) :
    (((l.map fun x => ⌊f x⌋).sum : ℤ) : ℚ) ≤ (l.map f).sum := by
  induction l with
  | nil => simp
  | cons x xs ih =>
    simp only [List.map_cons, List.sum_cons]
    have := Int.floor_le (f x)
    push_cast at ih ⊢
    linarith

theorem sum_map_sub_card_lt_floor (f : ℚ → ℚ) (l : List ℚ) :
    (l.map f).sum - l.length < (((l.map fun x => ⌊f x⌋).sum : ℤ) : ℚ) + 1 := by
  induction l with
  | nil => simp
  | cons x xs ih =>
    simp only [List.map_cons, List.sum_cons, List.length_cons]
    have := Int.sub_one_lt_floor (f x)
    push_cast at ih ⊢
    linarith

theorem sum_map_const_mul (c : ℚ) (l : List ℚ) : (l.map fun w => c * w).sum = c * l.sum := by
  induction l with
  | nil => simp
  | cons x xs ih =>
    simp only [List.map_cons, List.sum_cons, ih]
    ring

theorem sum_normalized (n : ℕ) (w : List ℚ) (hs : 0 < w.sum) :
    (w.map fun x => (n : ℚ) * (x / w.sum)).sum = n := by
  have hfun : (fun x => (n : ℚ) * (x / w.sum)) = fun x => ((n : ℚ) / w.sum) * x := by
    funext x
    ring
  rw [hfun, sum_map_const_mul, div_mul_cancel₀ _ hs.ne']

theorem floorSizes_sum_le (n : ℕ) (w : List ℚ) (hs : 0 < w.sum) :
    (floorSizes n w).sum ≤ (n : ℤ) := by
  have h1 := sum_floor_map_le (fun x => (n : ℚ) * (x / w.sum)) w
  rw [sum_normalized n w hs] at h1
  exact_mod_cast h1

theorem floorSizes_remainder_lt (n : ℕ) (w : List ℚ) (hs : 0 < w.sum) :
    (n : ℤ) - (floorSizes n w).sum < w.length + 1 := by
  have h1 := sum_map_sub_card_lt_floor (fun x => (n : ℚ) * (x / w.sum)) w
  rw [sum_normalized n w hs] at h1
  have h2 : ((n : ℚ) : ℚ) - w.length < ((floorSizes n w).sum : ℚ) + 1 := by
    exact_mod_cast h1
  exact_mod_cast (by linarith : ((n : ℚ)) - ((floorSizes n w).sum : ℚ) < w.length + 1)

theorem collectChunks_length {α : Type} (df : List α) (sizes : List ℤ) :
    ∀ idx, (collectChunks df sizes idx).length = sizes.length := by
  induction sizes with
  | nil => intro idx; rfl
  | cons s rest ih => intro idx; simp [collectChunks, ih]

theorem collectChunks_flatten {α : Type} (df : List α) (sizes : List ℤ) :
    ∀ idx, (collectChunks df sizes idx).flatten =
      (df.drop idx).take (sizes.map Int.toNat).sum := by
  induction sizes with
  | nil => intro idx; simp [collectChunks]
  | cons s rest ih =>
    intro idx
    simp only [collectChunks, List.flatten_cons, List.map_cons, List.sum_cons, ih]
    rw [List.take_add, List.drop_drop]

theorem sum_toNat_of_nonneg (l : List ℤ) (h : ∀ x ∈ l, 0 ≤ x) :
    ((l.map Int.toNat).sum : ℤ) = l.sum := by
  induction l with
  | nil => simp
  | cons x xs ih =>
    have hx := h x (by simp)
    have hxs := ih (fun y hy => h y (by simp [hy]))
    simp only [List.map_cons, List.sum_cons, Nat.cast_add]
    rw [hxs]
    omega

theorem chunkSizes_length (n : ℕ) (w : List ℚ) : (chunkSizes n w).length = w.length := by
  rw [chunkSizes, distributeRemainder_length, floorSizes_length]

theorem chunkSizes_nonneg (n : ℕ) (w : List ℚ) (hw : ∀ x ∈ w, 0 ≤ x) (hs : 0 < w.sum) :
    ∀ s ∈ chunkSizes n w, 0 ≤ s :=
  distributeRemainder_nonneg _ _ _ (floorSizes_nonneg n w hw hs.le)

theorem chunkSizes_sum (n : ℕ) (w : List ℚ) (hne : w ≠ []) (hs : 0 < w.sum) :
    (chunkSizes n w).sum = n := by
  have hlen : 0 < (floorSizes n w).length := by
    rw [floorSizes_length]
    exact List.length_pos.2 hne
  rw [chunkSizes, distributeRemainder_sum _ _ _ hlen,
    Int.toNat_of_nonneg (by have := floorSizes_sum_le n w hs; omega)]
  ring

/-- C1: for every ordered record list and every non-empty all-positive weight
vector, `weighted_chunks` returns exactly `K` slices, all chunk sizes are
non-negative, the slice lengths sum to `N`, and the concatenation of the slices
in tutor-index order is the original list. -/
theorem weighted_chunks_partition {α : Type} (df : List α) (weights : List ℚ)
    (hne : weights ≠ []) (hpos : ∀ w ∈ weights, 0 < w) :
    (weighted_chunks df weights).length = weights.length ∧
    (∀ s ∈ chunkSizes df.length weights, 0 ≤ s) ∧
    ((weighted_chunks df weights).map List.length).sum = df.length ∧
    (weighted_chunks df weights).flatten = df := by
  have hw0 : ∀ x ∈ weights, 0 ≤ x := fun x hx => (hpos x hx).le
  have hs : 0 < weights.sum := List.sum_pos weights hpos hne
  have hnn := chunkSizes_nonneg df.length weights hw0 hs
  have hsum : ((chunkSizes df.length weights).map Int.toNat).sum = df.length := by
    have h1 := sum_toNat_of_nonneg _ hnn
    rw [chunkSizes_sum df.length weights hne hs] at h1
    exact_mod_cast h1
  have hflat : (weighted_chunks df weights).flatten = df := by
    rw [weighted_chunks, collectChunks_flatten, hsum, List.drop_zero, List.take_length]
  refine ⟨?_, hnn, ?_, hflat⟩
  · rw [weighted_chunks, collectChunks_length, chunkSizes_length]
  · rw [← List.length_flatten, hflat]

/-- Witness for C1 at a concrete input. -/
theorem weighted_chunks_partition_witness :
    (([1, 1, 1] : List ℚ) ≠ [] ∧ ∀ w ∈ ([1, 1, 1] : List ℚ), 0 < w) ∧
    (weighted_chunks [10, 20, 30, 40, 50, 60, 70, 80, 90, 100] [1, 1, 1]).flatten
      = [10, 20, 30, 40, 50, 60, 70, 80, 90, 100] :=
  ⟨⟨by decide, by decide⟩,
   (weighted_chunks_partition [10, 20, 30, 40, 50, 60, 70, 80, 90, 100] [1, 1, 1]
      (by decide) (by decide)).2.2.2⟩

/-- C5: the largest-remainder round-robin algorithm is deterministic and starts
handing out remainder units at index 0: `N = 10`, weights `[1,1,1]` gives sizes
`[4,3,3]`, and `N = 7`, weights `[1/2,1/4,1/4]` floors to `[3,1,1]` with
remainder 2 handed to indices 0 and 1, giving `[4,2,1]`. -/
theorem chunkSizes_roundRobin_examples :
    chunkSizes 10 [1, 1, 1] = [4, 3, 3] ∧
    floorSizes 7 [1/2, 1/4, 1/4] = [3, 1, 1] ∧
    chunkSizes 7 [1/2, 1/4, 1/4] = [4, 2, 1] := by
  have h1 : floorSizes 10 [1, 1, 1] = [3, 3, 3] := by
    simp [floorSizes]
    norm_num
  have h2 : floorSizes 7 [1/2, 1/4, 1/4] = [3, 1, 1] := by
    simp [floorSizes]
    norm_num
  refine ⟨?_, h2, ?_⟩
  · rw [chunkSizes, h1]
    decide
  · rw [chunkSizes, h2]
    decide

theorem incAt_getElem? (l : List ℤ) (i j : ℕ) :
    (incAt l i)[j]? = if i = j then l[j]?.map (· + 1) else l[j]? := by
  induction l generalizing i j with
  | nil => simp [incAt]
  | cons a xs ih =>
    cases i with
    | zero =>
      cases j with
      | zero => simp [incAt]
      | succ k => simp [incAt]
    | succ i' =>
      cases j with
      | zero => simp [incAt]
      | succ k =>
        simp only [incAt, List.getElem?_cons_succ, ih i' k, Nat.succ.injEq]

theorem distributeRemainder_getElem? (r : ℕ) :
    ∀ (l : List ℤ) (idx : ℕ), idx + r ≤ l.length →
      ∀ j, (distributeRemainder l idx r)[j]? =
        if idx ≤ j ∧ j < idx + r then l[j]?.map (· + 1) else l[j]? := by
  induction r with
  | zero =>
    intro l idx _ j
    rw [distributeRemainder, if_neg (by omega)]
  | succ r ih =>
    intro l idx h j
    have hlen : idx < l.length := by omega
    by_cases hcase : idx + 1 < l.length
    · rw [distributeRemainder, Nat.mod_eq_of_lt hcase,
        ih (incAt l idx) (idx + 1) (by rw [incAt_length]; omega) j, incAt_getElem?]
      split_ifs <;> first | rfl | omega
    · have hr : r = 0 := by omega
      have hmod : (idx + 1) % l.length = 0 := by
        have hidx : idx + 1 = l.length := by omega
        simp [hidx]
      subst hr
      rw [distributeRemainder, hmod, distributeRemainder, incAt_getElem?]
      split_ifs <;> first | rfl | omega

theorem floorSizes_getElem?_zero (n : ℕ) (w : List ℚ) (i : ℕ) (hi : w[i]? = some 0) :
    (floorSizes n w)[i]? = some 0 := by
  rw [floorSizes, List.getElem?_map, hi]
  simp

/-- C3 (amended): for any records and any non-negative weights with positive sum,
a tutor whose weight is zero gets a floored share of zero but may still receive
one round-robin remainder unit, so its final chunk size is 0 or 1 (never an
error); the spec example `weights = [1, 0, 1]`, `N = 4` does yield sizes
`[2, 0, 2]`. -/
theorem weighted_chunks_zero_weight (n : ℕ) (w : List ℚ) (i : ℕ)
    (hw : ∀ x ∈ w, 0 ≤ x) (hs : 0 < w.sum) (hi : w[i]? = some 0) :
    ((floorSizes n w)[i]? = some 0 ∧
      ∃ s : ℤ, (chunkSizes n w)[i]? = some s ∧ 0 ≤ s ∧ s ≤ 1) ∧
    (weighted_chunks [0, 1, 2, 3] ([1, 0, 1] : List ℚ)).map List.length = [2, 0, 2] := by
  constructor
  · have hfl := floorSizes_getElem?_zero n w i hi
    refine ⟨hfl, ?_⟩
    have hrem : ((n : ℤ) - (floorSizes n w).sum).toNat ≤ w.length := by
      have h1 := floorSizes_remainder_lt n w hs
      omega
    have hchar := distributeRemainder_getElem? ((n : ℤ) - (floorSizes n w).sum).toNat
      (floorSizes n w) 0 (by rw [floorSizes_length]; omega) i
    rw [chunkSizes, hchar, hfl]
    by_cases hin : 0 ≤ i ∧ i < 0 + ((n : ℤ) - (floorSizes n w).sum).toNat
    · rw [if_pos hin]
      exact ⟨1, rfl, by omega, by omega⟩
    · rw [if_neg hin]
      exact ⟨0, rfl, by omega, by omega⟩
  · have h1 : floorSizes 4 [1, 0, 1] = [2, 0, 2] := by
      norm_num [floorSizes]
    have h2 : chunkSizes 4 [1, 0, 1] = [2, 0, 2] := by
      rw [chunkSizes, h1]
      decide
    have h3 : weighted_chunks [0, 1, 2, 3] ([1, 0, 1] : List ℚ) = [[0, 1], [], [2, 3]] := by
      show collectChunks [0, 1, 2, 3] (chunkSizes 4 [1, 0, 1]) 0 = [[0, 1], [], [2, 3]]
      rw [h2]
      decide
    rw [h3]
    decide

/-- Witness for C3's amended theorem at the spec's own example. -/
theorem weighted_chunks_zero_weight_witness :
    (∀ x ∈ ([1, 0, 1] : List ℚ), 0 ≤ x) ∧ 0 < ([1, 0, 1] : List ℚ).sum ∧
    ([1, 0, 1] : List ℚ)[1]? = some 0 ∧
    (weighted_chunks [0, 1, 2, 3] ([1, 0, 1] : List ℚ)).map List.length = [2, 0, 2] :=
  ⟨by decide, by norm_num, by decide,
    (weighted_chunks_zero_weight 4 [1, 0, 1] 1 (by decide) (by norm_num) (by decide)).2⟩

/-- C3 counterexample: with weights `[0, 1, 1]` and three records, the single
round-robin remainder unit goes to index 0, so the zero-weight tutor receives a
slice of size 1, refuting "each tutor whose weight is zero is assigned a
zero-size slice". -/
theorem weighted_chunks_zero_weight_cex :
    ([0, 1, 1] : List ℚ)[0]? = some 0 ∧
    (weighted_chunks [7, 8, 9] ([0, 1, 1] : List ℚ)).map List.length = [1, 1, 1] ∧
    ¬ ((weighted_chunks [7, 8, 9] ([0, 1, 1] : List ℚ)).map List.length)[0]? = some 0 := by
  have h1 : floorSizes 3 [0, 1, 1] = [0, 1, 1] := by
    simp [floorSizes]
    norm_num
  have h2 : chunkSizes 3 [0, 1, 1] = [1, 1, 1] := by
    rw [chunkSizes, h1]
    decide
  have h3 : weighted_chunks [7, 8, 9] ([0, 1, 1] : List ℚ) = [[7], [8], [9]] := by
    show collectChunks [7, 8, 9] (chunkSizes 3 [0, 1, 1]) 0 = [[7], [8], [9]]
    rw [h2]
    decide
  refine ⟨by decide, ?_, ?_⟩ <;> rw [h3] <;> decide

/-- C6: roster rotation by an integer shift is cyclic: input index `i` moves to
output index `(i + s) mod K`; `["A", "B", "C"]` rolled by 1 is `["C", "A", "B"]`;
a shift of 0 leaves any roster unchanged (the same statement applies to the name
and the weight sequence, which are rolled by the same shift). -/
theorem np_roll_rotation :
    (∀ (α : Type) (l : List α) (s : ℤ) (i : ℕ), i < l.length →
      (np_roll l s).get? ((((i : ℕ) : ℤ) + s) % ((l.length : ℕ) : ℤ)).toNat = l.get? i) ∧
    np_roll ["A", "B", "C"] 1 = ["C", "A", "B"] ∧
    (∀ (α : Type) (l : List α), np_roll l 0 = l) := by
  refine ⟨?_, by decide, ?_⟩
  · intro α l s i hi
    have hK : 0 < l.length := by omega
    have hKz : ((l.length : ℤ)) ≠ 0 := by exact_mod_cast hK.ne'
    have hKpos : (0 : ℤ) < (l.length : ℤ) := by exact_mod_cast hK
    have ha0 : 0 ≤ s % (l.length : ℤ) := Int.emod_nonneg s hKz
    have haK : s % (l.length : ℤ) < l.length := Int.emod_lt_of_pos s hKpos
    set K := l.length with hKdef
    set r := (s % (K : ℤ)).toNat with hrdef
    have hrK : r < K := by omega
    have hnp : np_roll l s = l.rotate (K - r) := by
      rw [np_roll, if_neg (by omega)]
      exact (List.rotate_eq_drop_append_take (by omega)).symm
    have hm0 : 0 ≤ ((i : ℤ) + s) % (K : ℤ) := Int.emod_nonneg _ hKz
    have hmK : ((i : ℤ) + s) % (K : ℤ) < K := Int.emod_lt_of_pos _ hKpos
    set m := (((i : ℤ) + s) % (K : ℤ)).toNat with hmdef
    have hmlt : m < K := by omega
    have hsplit : (i : ℤ) + s = ((i : ℤ) + s % (K : ℤ)) + (K : ℤ) * (s / (K : ℤ)) := by
      have hdiv := Int.emod_add_ediv s (K : ℤ)
      linarith
    have hstep : ((i : ℤ) + s) % (K : ℤ) = ((i : ℤ) + s % (K : ℤ)) % (K : ℤ) := by
      rw [hsplit, Int.add_mul_emod_self_left]
    rw [hnp, List.get?_rotate hmlt]
    by_cases hcase : (i : ℤ) + s % (K : ℤ) < K
    · have hA : ((i : ℤ) + s) % (K : ℤ) = (i : ℤ) + s % (K : ℤ) := by
        rw [hstep]
        exact Int.emod_eq_of_lt (by omega) hcase
      have hmval : m = i + r := by omega
      have hidx : m + (K - r) = i + K := by omega
      rw [hidx, Nat.add_mod_right, Nat.mod_eq_of_lt hi]
    · push_neg at hcase
      have hb1 : 0 ≤ (i : ℤ) + s % (K : ℤ) - K := by omega
      have hb2 : (i : ℤ) + s % (K : ℤ) - K < K := by omega
      have hB : ((i : ℤ) + s) % (K : ℤ) = (i : ℤ) + s % (K : ℤ) - K := by
        rw [hstep]
        have hrew : (i : ℤ) + s % (K : ℤ) = ((i : ℤ) + s % (K : ℤ) - K) + (K : ℤ) * 1 := by
          ring
        conv_lhs => rw [hrew]
        rw [Int.add_mul_emod_self_left]
        exact Int.emod_eq_of_lt hb1 hb2
      have hidx : m + (K - r) = i := by omega
      rw [hidx, Nat.mod_eq_of_lt hi]
  · intro α l
    by_cases h : l.length = 0
    · simp [np_roll, h]
    · simp [np_roll, h]

/-- Witness for C6 at a concrete roster and shift. -/
theorem np_roll_rotation_witness :
    0 < (["A", "B", "C"] : List String).length ∧
    (np_roll ["A", "B", "C"] 1).get?
        ((((0 : ℕ) : ℤ) + 1) % (((["A", "B", "C"] : List String).length : ℕ) : ℤ)).toNat
      = (["A", "B", "C"] : List String).get? 0 :=
  ⟨by decide, np_roll_rotation.1 String ["A", "B", "C"] 1 0 (by decide)⟩

theorem parseWeightedRows_error (ts : List String) :
    ∀ e, parseWeightedRows ts = .error e → ∃ t, e = .expectedComma t := by
  induction ts with
  | nil => intro e h; simp [parseWeightedRows] at h
  | cons t ts ih =>
    intro e h
    rw [parseWeightedRows] at h
    by_cases hc : t.contains ','
    · rw [if_pos hc] at h
      cases hrec : parseWeightedRows ts with
      | ok rows => rw [hrec] at h; simp [Except.map] at h
      | error e2 =>
        rw [hrec] at h
        simp [Except.map] at h
        exact h ▸ ih e2 hrec
    · rw [if_neg hc] at h
      exact ⟨t, by cases h; rfl⟩

theorem checkUnweighted_error (ts : List String) :
    ∀ e, checkUnweighted ts = .error e → ∃ t, e = .unexpectedComma t := by
  induction ts with
  | nil => intro e h; simp [checkUnweighted] at h
  | cons t ts ih =>
    intro e h
    rw [checkUnweighted] at h
    by_cases hc : t.contains ','
    · rw [if_pos hc] at h
      exact ⟨t, by cases h; rfl⟩
    · rw [if_neg hc] at h
      cases hrec : checkUnweighted ts with
      | ok ns => rw [hrec] at h; simp [Except.map] at h
      | error e2 =>
        rw [hrec] at h
        simp [Except.map] at h
        exact h ▸ ih e2 hrec

/-- C10: tutor-list parsing decides the format by whether entry 0 contains a
comma; on the empty list it raises `IndexError` (not one of the
malformed-entry `ValueError`s), and on any non-empty list the branch taken
depends only on entry 0 (and `IndexError` is impossible). -/
theorem extract_weighted_tutors_firstEntry :
    extract_weighted_tutors [] = .error .indexError ∧
    (∀ t, extract_weighted_tutors [] ≠ .error (.expectedComma t)) ∧
    (∀ t, extract_weighted_tutors [] ≠ .error (.unexpectedComma t)) ∧
    ∀ t0 rest,
      tookWeightedBranch (extract_weighted_tutors (t0 :: rest)) = t0.contains ',' ∧
      extract_weighted_tutors (t0 :: rest) ≠ .error .indexError := by
  refine ⟨rfl, by simp [extract_weighted_tutors], by simp [extract_weighted_tutors], ?_⟩
  intro t0 rest
  rw [extract_weighted_tutors]
  by_cases hc : t0.contains ','
  · rw [if_pos hc, hc]
    cases hrec : parseWeightedRows (t0 :: rest) with
    | ok rows => simp [Except.map, tookWeightedBranch]
    | error e =>
      obtain ⟨t, rfl⟩ := parseWeightedRows_error _ e hrec
      simp [Except.map, tookWeightedBranch]
  · have hc0 : t0.contains ',' = false := by simpa using hc
    rw [if_neg hc, hc0]
    cases hrec : checkUnweighted (t0 :: rest) with
    | ok ns => simp [Except.map, tookWeightedBranch]
    | error e =>
      obtain ⟨t, rfl⟩ := checkUnweighted_error _ e hrec
      simp [Except.map, tookWeightedBranch]

theorem renameStep_eq_specRename (total : List String) :
    ∀ (rest pre : List String) (counts : String → ℕ),
      (∀ n, 2 ≤ total.count n → counts n = pre.count n) →
      renameStep total rest counts = specRename total pre rest := by
  intro rest
  induction rest with
  | nil => intro pre counts _; rfl
  | cons n rest ih =>
    intro pre counts h
    rw [renameStep, specRename]
    by_cases hd : 2 ≤ total.count n
    · rw [if_pos hd, if_pos hd, h n hd]
      congr 1
      apply ih
      intro m hm
      by_cases hmn : m = n
      · subst hmn
        simp [h m hm, List.count_append]
      · simp [h m hm, List.count_append, List.count_singleton', hmn]
    · rw [if_neg hd, if_neg hd]
      congr 1
      apply ih
      intro m hm
      have hmn : m ≠ n := fun he => hd (he ▸ hm)
      simp [h m hm, List.count_append, List.count_singleton', hmn]

/-- C2 (amended): every occurrence of a duplicated name is suffixed with a
1-based occurrence counter in roster order (the threaded counter dictionary
computes exactly the occurrence index so far), and the spec example holds; the
uniqueness post-condition, however, does not hold for every input roster. -/
theorem handle_duplicate_names_spec :
    (∀ names, handle_duplicate_names names = specRename names [] names) ∧
    handle_duplicate_names ["Alex", "Sam", "Alex"] = ["Alex (1)", "Sam", "Alex (2)"] := by
  constructor
  · intro names
    exact renameStep_eq_specRename names names [] (fun _ => 0) (fun n _ => by simp)
  · decide

/-- C2 counterexample: a roster whose third tutor is literally named
"Alex (1)" while two other tutors are named "Alex": renaming produces
`["Alex (1)", "Alex (2)", "Alex (1)"]`, which still contains a duplicate, so
uniqueness after duplicate resolution is not a post-condition holding for all
inputs. -/
theorem handle_duplicate_names_cex :
    handle_duplicate_names ["Alex", "Alex", "Alex (1)"]
      = ["Alex (1)", "Alex (2)", "Alex (1)"] ∧
    ¬ (handle_duplicate_names ["Alex", "Alex", "Alex (1)"]).Nodup := by
  constructor <;> decide

/-- C4 (amended): the assert compares only total row counts, so it passes iff
the merged length equals the submission count; in particular, whenever every
submission matches exactly one auxiliary row the check passes and the merge
keeps every submission in order. The converse direction of the claimed "if and
only if" fails: compensating mismatches can also pass (see the
counterexample). -/
theorem joinCheck_exactMatch (subs info : List String)
    (h : ∀ s ∈ subs, (info.filter fun t => t == s).length = 1) :
    joinCheckPasses subs info = true ∧
    (innerMergeKeys subs info).map Prod.fst = subs := by
  have hfst : (innerMergeKeys subs info).map Prod.fst = subs := by
    induction subs with
    | nil => rfl
    | cons s ss ih =>
      have hs := h s (by simp)
      rw [innerMergeKeys] at ih ⊢
      rw [List.flatMap_cons, List.map_append, List.map_map]
      have h1 : ((info.filter fun t => t == s).map (Prod.fst ∘ fun t => (s, t))) = [s] := by
        have : (Prod.fst ∘ fun t : String => (s, t)) = fun _ => s := rfl
        rw [this]
        cases hfl : info.filter fun t => t == s with
        | nil => rw [hfl] at hs; simp at hs
        | cons a l =>
          rw [hfl] at hs
          simp at hs
          simp [hs]
      rw [h1, ih fun x hx => h x (by simp [hx])]
      rfl
  refine ⟨?_, hfst⟩
  have hlen : (innerMergeKeys subs info).length = subs.length := by
    have := congrArg List.length hfst
    simpa using this
  simp [joinCheckPasses, hlen]

/-- Witness for C4's amended theorem at a concrete exact-match input. -/
theorem joinCheck_exactMatch_witness :
    (∀ s ∈ (["X", "Y"] : List String),
      ((["X", "Y"] : List String).filter fun t => t == s).length = 1) ∧
    joinCheckPasses ["X", "Y"] ["X", "Y"] = true :=
  ⟨by decide, (joinCheck_exactMatch ["X", "Y"] ["X", "Y"] (by decide)).1⟩

/-- C4 counterexample: submissions `["A", "B"]` against auxiliary names
`["A", "A"]`: "A" matches two rows, "B" matches none, the two mismatches
compensate, the length assert passes, and submission "B" is silently lost —
refuting "the join fails if and only if some submission matches no or more
than one auxiliary row". -/
theorem joinCheck_cex :
    joinCheckPasses ["A", "B"] ["A", "A"] = true ∧
    ((["A", "A"] : List String).filter fun t => t == "B").length = 0 ∧
    (innerMergeKeys ["A", "B"] ["A", "A"]).map Prod.fst = ["A", "A"] := by
  refine ⟨by decide, by decide, by decide⟩

theorem pymax_none (l : List (String × ℕ)) (h : pymax l = none) : l = [] := by
  cases l with
  | nil => rfl
  | cons a rest =>
    rw [pymax] at h
    cases hrec : pymax rest with
    | none =>
      rw [hrec] at h
      exact Option.noConfusion (show some a = none from h)
    | some best =>
      rw [hrec] at h
      by_cases hgt : best.2 > a.2
      · have h2 : (if best.2 > a.2 then some best else some a) = none := h
        rw [if_pos hgt] at h2
        exact Option.noConfusion h2
      · have h2 : (if best.2 > a.2 then some best else some a) = none := h
        rw [if_neg hgt] at h2
        exact Option.noConfusion h2

theorem pymax_isMax (l : List (String × ℕ)) (kv : String × ℕ) (h : pymax l = some kv) :
    kv ∈ l ∧ ∀ x ∈ l, x.2 ≤ kv.2 := by
  induction l generalizing kv with
  | nil => exact Option.noConfusion h
  | cons a rest ih =>
    rw [pymax] at h
    cases hrec : pymax rest with
    | none =>
      rw [hrec] at h
      have h2 : some a = some kv := h
      cases h2
      have hrest : rest = [] := pymax_none rest hrec
      subst hrest
      exact ⟨by simp, by simp⟩
    | some best =>
      rw [hrec] at h
      have h2 : (if best.2 > a.2 then some best else some a) = some kv := h
      obtain ⟨hmem, hbound⟩ := ih best hrec
      by_cases hgt : best.2 > a.2
      · rw [if_pos hgt] at h2
        cases h2
        refine ⟨by simp [hmem], ?_⟩
        intro x hx
        rcases List.mem_cons.1 hx with rfl | hx
        · omega
        · exact hbound x hx
      · rw [if_neg hgt] at h2
        cases h2
        refine ⟨by simp, ?_⟩
        intro x hx
        rcases List.mem_cons.1 hx with rfl | hx
        · exact le_rfl
        · have := hbound x hx
          omega

theorem finalStage_ok (fc lc : List (String × ℕ)) (f l : String)
    (h : finalStage fc lc = .ok (f, l)) :
    isMaxOf f fc ∧ isMaxOf l lc ∧ f ≠ l := by
  cases hf : pymax fc with
  | none =>
    rw [finalStage, hf] at h
    exact Except.noConfusion h
  | some fkv =>
    cases hl : pymax lc with
    | none =>
      rw [finalStage, hf, hl] at h
      exact Except.noConfusion h
    | some lkv =>
      rw [finalStage, hf, hl] at h
      have h2 : (if fkv.1 = lkv.1 then Except.error (MatchErr.assertSameCol fkv.1)
          else Except.ok (fkv.1, lkv.1)) = Except.ok (f, l) := h
      by_cases heq : fkv.1 = lkv.1
      · rw [if_pos heq] at h2
        exact Except.noConfusion h2
      · rw [if_neg heq] at h2
        have h3 : (fkv.1, lkv.1) = (f, l) := by
          injection h2
        obtain ⟨hmemf, hbf⟩ := pymax_isMax fc fkv hf
        obtain ⟨hmeml, hbl⟩ := pymax_isMax lc lkv hl
        obtain ⟨rfl, rfl⟩ := Prod.mk.injEq .. ▸ (Prod.ext_iff.1 h3)
        exact ⟨⟨fkv.2, by simpa using hmemf, hbf⟩, ⟨lkv.2, by simpa using hmeml, hbl⟩, heq⟩

theorem finalStage_sameCol (fc lc : List (String × ℕ)) (c : String) (vf vl : ℕ)
    (hf : pymax fc = some (c, vf)) (hl : pymax lc = some (c, vl)) :
    finalStage fc lc = .error (.assertSameCol c) := by
  rw [finalStage, hf, hl]
  simp

/-- C8: whenever the count accumulation completes with dictionaries `fc, lc`,
the frequency-heuristic resolver can only return a pair `(f, l)` where `f`
attains the maximal first-name-signal count, `l` attains the maximal
last-name-signal count and `f ≠ l`; and whenever the same column wins both
maxima, it fails with the assertion-style error instead of returning. -/
theorem match_full_names_heuristic (fullNames : List (List Char))
    (info : List (String × List (List Char))) (fc lc : List (String × ℕ))
    (hacc : accumCounts fullNames info ([], []) = .ok (fc, lc)) :
    (∀ f l, match_full_names fullNames info = .ok (f, l) →
      isMaxOf f fc ∧ isMaxOf l lc ∧ f ≠ l) ∧
    (∀ c vf vl, pymax fc = some (c, vf) → pymax lc = some (c, vl) →
      match_full_names fullNames info = .error (.assertSameCol c)) := by
  constructor
  · intro f l hok
    rw [match_full_names, hacc] at hok
    exact finalStage_ok fc lc f l hok
  · intro c vf vl hf hl
    rw [match_full_names, hacc]
    exact finalStage_sameCol fc lc c vf vl hf hl

/-- Witness for C8 at a concrete two-column table. -/
theorem match_full_names_heuristic_witness :
    accumCounts ["Jane Doe".toList] [("first", ["Jane".toList]), ("last", ["Doe".toList])]
        ([], []) = .ok ([("first", 1)], [("last", 1)]) ∧
    (isMaxOf "first" [("first", 1)] ∧ isMaxOf "last" [("last", 1)] ∧ "first" ≠ "last") :=
  ⟨by decide,
    (match_full_names_heuristic ["Jane Doe".toList]
        [("first", ["Jane".toList]), ("last", ["Doe".toList])]
        [("first", 1)] [("last", 1)] (by decide)).1 "first" "last" (by decide)⟩

/-- C9: whenever a full name fails the prefix test against a cell value, it
must split into at least two space-separated tokens or the `assert` fires; in
particular the single-token roster `["Alex"]` against a column containing
"Bob" makes the resolver crash with the assertion error rather than return a
result or a documented error. -/
theorem match_full_names_assertSplit :
    (∀ (fullName : List Char) (col : String) (elem : List Char)
        (acc : List (String × ℕ) × List (String × ℕ)),
      charsStartsWith fullName elem = false →
      (splitOnChar ' ' fullName).length < 2 →
      nameStep fullName col elem acc = .error (.assertSplit fullName)) ∧
    match_full_names ["Alex".toList] [("c", ["Bob".toList])]
      = .error (.assertSplit "Alex".toList) := by
  constructor
  · intro fullName col elem acc h1 h2
    rw [nameStep, if_neg (by simp [h1]), if_neg (by omega)]
  · decide

/-- Witness for C9's general part at a concrete name and cell value. -/
theorem match_full_names_assertSplit_witness :
    (charsStartsWith "Alex".toList "Bob".toList = false ∧
      (splitOnChar ' ' "Alex".toList).length < 2) ∧
    nameStep "Alex".toList "c" "Bob".toList ([], [])
      = .error (.assertSplit "Alex".toList) :=
  ⟨⟨by decide, by decide⟩,
    match_full_names_assertSplit.1 "Alex".toList "c" "Bob".toList ([], [])
      (by decide) (by decide)⟩

theorem extractRow_err_iff (s : List Char) (cols : List (String × Regex)) :
    (∃ e, extractRow s cols = .error e) ↔ ∃ nc ∈ cols, rsearch nc.2 s = none := by
  induction cols with
  | nil => simp [extractRow]
  | cons nc cols ih =>
    obtain ⟨name, r⟩ := nc
    cases hs : rsearch r s with
    | none =>
      simp only [extractRow, hs]
      exact ⟨fun _ => ⟨(name, r), by simp, hs⟩, fun _ => ⟨(s, name), rfl⟩⟩
    | some m =>
      simp only [extractRow, hs]
      cases hrec : extractRow s cols with
      | ok vals =>
        constructor
        · rintro ⟨e, he⟩
          exact Except.noConfusion (show Except.ok (m :: vals) = Except.error e from he)
        · rintro ⟨nc2, hmem, hnone⟩
          rcases List.mem_cons.1 hmem with rfl | hmem2
          · rw [hs] at hnone
            exact Option.noConfusion hnone
          · obtain ⟨e, he⟩ := ih.2 ⟨nc2, hmem2, hnone⟩
            rw [hrec] at he
            exact Except.noConfusion he
      | error e2 =>
        constructor
        · intro _
          obtain ⟨nc2, hmem, hnone⟩ := ih.1 ⟨e2, hrec⟩
          exact ⟨nc2, by simp [hmem], hnone⟩
        · intro _
          exact ⟨e2, rfl⟩

theorem extractRow_allMatch (s : List Char) (cols : List (String × Regex))
    (h : ∀ nc ∈ cols, rsearch nc.2 s ≠ none) :
    extractRow s cols = .ok (cols.map fun nc => (rsearch nc.2 s).getD []) := by
  induction cols with
  | nil => rfl
  | cons nc cols ih =>
    obtain ⟨name, r⟩ := nc
    cases hs : rsearch r s with
    | none => exact absurd hs (h (name, r) (by simp))
    | some m =>
      have hrec := ih fun x hx => h x (by simp [hx])
      simp only [extractRow, hs, hrec, List.map_cons]
      simp [hs]

/-- C7: the metadata extractor fails (naming the identifier and field) iff
some field pattern has no match in some identifier; when every pattern matches
every identifier, it returns one record per identifier whose value for each
field is the first (leftmost, greedy) match of that field's pattern; on the
spec's example identifier the patterns `.+(?=_\d{7})` and `\d{7}` extract
"Jane Doe" and "1234567". -/
theorem get_submissions_df_spec :
    (∀ (subs : List (List Char)) (cols : List (String × Regex)),
      (∃ e, get_submissions_df subs cols = .error e) ↔
        ∃ s ∈ subs, ∃ nc ∈ cols, rsearch nc.2 s = none) ∧
    (∀ (subs : List (List Char)) (cols : List (String × Regex)),
      (∀ s ∈ subs, ∀ nc ∈ cols, rsearch nc.2 s ≠ none) →
      get_submissions_df subs cols
        = .ok (subs.map fun s => cols.map fun nc => (rsearch nc.2 s).getD [])) ∧
    rsearch fullNamePat "Jane Doe_1234567_assignsubmission_file_".toList
      = some "Jane Doe".toList ∧
    rsearch moodleIdPat "Jane Doe_1234567_assignsubmission_file_".toList
      = some "1234567".toList ∧
    get_submissions_df ["Jane Doe_1234567_assignsubmission_file_".toList]
        [("full_name", fullNamePat), ("moodle_id", moodleIdPat)]
      = .ok [["Jane Doe".toList, "1234567".toList]] := by
  refine ⟨?_, ?_, by decide, by decide, by decide⟩
  · intro subs cols
    induction subs with
    | nil => simp [get_submissions_df]
    | cons s ss ih =>
      cases hrow : extractRow s cols with
      | error e =>
        simp only [get_submissions_df, hrow]
        constructor
        · intro _
          obtain ⟨nc, hmem, hnone⟩ := (extractRow_err_iff s cols).1 ⟨e, hrow⟩
          exact ⟨s, by simp, nc, hmem, hnone⟩
        · intro _
          exact ⟨e, rfl⟩
      | ok row =>
        simp only [get_submissions_df, hrow]
        cases hrec : get_submissions_df ss cols with
        | ok rows =>
          constructor
          · rintro ⟨e, he⟩
            exact Except.noConfusion (show Except.ok (row :: rows) = Except.error e from he)
          · rintro ⟨s2, hmem, nc, hnc, hnone⟩
            rcases List.mem_cons.1 hmem with rfl | hmem2
            · obtain ⟨e, he⟩ := (extractRow_err_iff s2 cols).2 ⟨nc, hnc, hnone⟩
              rw [hrow] at he
              exact Except.noConfusion he
            · obtain ⟨e, he⟩ := ih.2 ⟨s2, hmem2, nc, hnc, hnone⟩
              rw [hrec] at he
              exact Except.noConfusion he
        | error e2 =>
          constructor
          · intro _
            obtain ⟨s2, hmem, nc, hnc, hnone⟩ := ih.1 ⟨e2, hrec⟩
            exact ⟨s2, by simp [hmem], nc, hnc, hnone⟩
          · intro _
            exact ⟨e2, rfl⟩
  · intro subs cols h
    induction subs with
    | nil => rfl
    | cons s ss ih =>
      have hrow := extractRow_allMatch s cols fun nc hnc => h s (by simp) nc hnc
      have hrec := ih fun s2 hs2 nc hnc => h s2 (by simp [hs2]) nc hnc
      simp only [get_submissions_df, hrow, hrec, List.map_cons]

end MoodleSplit
